import Mathlib

/-!
Shallow embedding of the ics23-ts proof verifier (src/src/ops.ts, compress.ts,
proofs.ts, ics23.ts, webcat.ts) together with theorems checking the frozen
claims about it.

Conventions of the embedding:
* Byte strings are `List Nat` (each element a byte value).
* The SHA-256 primitive is external to the repository (it is consumed through
  the Web Crypto API), so every function that hashes takes the digest function
  `sha : Bytes → Bytes` as an explicit parameter.
* TypeScript functions that can `throw` are embedded as `Except String`
  computations; `throw new Error(msg)` becomes `Except.error msg` (messages are
  abbreviated, their exact text is not part of any claim).
* Protobuf-generated record types are not under src/; following the data model
  of the specification they are modelled as structures, with `Option` for
  fields whose absence the code tests (`!proof.leaf`, `proof.key!`, ...) and
  with the four alternatives of `CommitmentProof` (and the two of a batch
  entry) as a tagged union, since the wire format declares them as a oneof.
  The TypeScript non-null assertion `x!` on a decoded message yields the
  protobuf default value for an absent field, which `Option.getD` mirrors.
* JavaScript numbers are embedded as `ℚ` where fractional values actually flow
  (the varint encoder); all arithmetic performed there is exact in binary
  floating point for any realizable `Uint8Array` length (division by 128 only
  shifts the exponent), so the rational semantics is faithful.
-/

/-- Byte strings, one `Nat` per byte. -/
abbrev Bytes := List Nat

/-- Modelled from the spec: specs.ts is not under src/. `bytesEqual` is
byte-for-byte equality of two byte strings. -/
def bytesEqual (a b : Bytes) : Bool := a == b

/-- Modelled from the spec: specs.ts is not under src/. `bytesBefore` is the
strict lexicographic order on byte strings (a proper initial segment sorts
first). -/
def bytesBefore : Bytes → Bytes → Bool
  | _, [] => false
  | [], _ :: _ => true
  | a :: as, b :: bs => if a < b then true else if b < a then false else bytesBefore as bs

/-- Modelled from the spec: specs.ts is not under src/. `ensureBytesEqual`
throws unless the two byte strings are equal. -/
def ensureBytesEqualE (a b : Bytes) : Except String Unit :=
  if bytesEqual a b then .ok () else .error "bytes not equal"

/-- Modelled from the spec: specs.ts is not under src/. `ensureBytesBefore`
throws unless the first byte string sorts strictly before the second. -/
def ensureBytesBeforeE (a b : Bytes) : Except String Unit :=
  if bytesBefore a b then .ok () else .error "bytes not before"

/-- proto enum HashOp. -/
inductive HashOp where
  | NO_HASH | SHA256 | SHA512 | KECCAK | RIPEMD160 | BITCOIN
  | SHA512_256 | BLAKE2B_512 | BLAKE2S_256 | BLAKE3
  deriving DecidableEq

/-- proto enum LengthOp. -/
inductive LengthOp where
  | NO_PREFIX | VAR_PROTO | VAR_RLP | FIXED32_BIG | FIXED32_LITTLE
  | FIXED64_BIG | FIXED64_LITTLE | REQUIRE_32_BYTES | REQUIRE_64_BYTES
  deriving DecidableEq

/-- proto message LeafOp (field `prefix` is called `pfx` because `prefix` is
not a usable identifier in Lean). -/
structure LeafOp where
  hash : HashOp
  prehashKey : HashOp
  prehashValue : HashOp
  length : LengthOp
  pfx : Bytes
  deriving DecidableEq

/-- proto message InnerOp (`prefix`/`suffix` are called `pfx`/`sfx`). -/
structure InnerOp where
  hash : HashOp
  pfx : Bytes
  sfx : Bytes
  deriving DecidableEq

/-- proto message InnerSpec. -/
structure InnerSpec where
  childOrder : List Nat
  childSize : Nat
  minPrefixLength : Nat
  maxPrefixLength : Nat
  emptyChild : Bytes
  hash : HashOp
  deriving DecidableEq

/-- proto message ProofSpec. -/
structure ProofSpec where
  leafSpec : Option LeafOp
  innerSpec : Option InnerSpec
  minDepth : Nat
  maxDepth : Nat
  prehashKeyBeforeComparison : Bool
  deriving DecidableEq

/-- proto message ExistenceProof; `key`, `value` and `leaf` may be absent and
the code checks for this. -/
structure ExistenceProof where
  key : Option Bytes
  value : Option Bytes
  leaf : Option LeafOp
  path : List InnerOp
  deriving DecidableEq

/-- proto message NonExistenceProof. -/
structure NonExistenceProof where
  key : Option Bytes
  left : Option ExistenceProof
  right : Option ExistenceProof
  deriving DecidableEq

/-- proto message BatchEntry: a oneof of an existence or a non-existence
proof. -/
inductive BatchEntry where
  | exist (e : ExistenceProof)
  | nonexist (ne : NonExistenceProof)
  deriving DecidableEq

/-- proto message BatchProof. -/
structure BatchProof where
  entries : List BatchEntry
  deriving DecidableEq

/-- proto message CompressedExistenceProof: the path is a list of indices into
the shared `lookupInners` table. -/
structure CompressedExistenceProof where
  key : Option Bytes
  value : Option Bytes
  leaf : Option LeafOp
  path : List Nat
  deriving DecidableEq

/-- proto message CompressedNonExistenceProof. -/
structure CompressedNonExistenceProof where
  key : Option Bytes
  left : Option CompressedExistenceProof
  right : Option CompressedExistenceProof
  deriving DecidableEq

/-- proto message CompressedBatchEntry: a oneof. -/
inductive CompressedBatchEntry where
  | exist (e : CompressedExistenceProof)
  | nonexist (ne : CompressedNonExistenceProof)
  deriving DecidableEq

/-- proto message CompressedBatchProof. -/
structure CompressedBatchProof where
  entries : List CompressedBatchEntry
  lookupInners : List InnerOp
  deriving DecidableEq

/-- proto message CommitmentProof: a oneof of the four proof shapes. -/
inductive CommitmentProof where
  | exist (e : ExistenceProof)
  | nonexist (ne : NonExistenceProof)
  | batch (b : BatchProof)
  | compressed (c : CompressedBatchProof)
  deriving DecidableEq

/-- The TypeScript non-null assertion `x!` on an optional byte field: a decoded
protobuf message carries the default (empty) byte string for an absent
field. -/
def ob (x : Option Bytes) : Bytes := x.getD []

/-- Default LeafOp, the value a decoded message carries for an absent LeafOp
submessage that the code dereferences with `!`. -/
def dLeafOp : LeafOp := ⟨.NO_HASH, .NO_HASH, .NO_HASH, .NO_PREFIX, []⟩

/-- Default InnerOp: stands for a JavaScript `undefined` array element produced
by an out-of-range `lookupInners[idx]` access; every use of such an element
inside the verifier ends in a thrown error either way. -/
def dInnerOp : InnerOp := ⟨.NO_HASH, [], []⟩

/-- Default ExistenceProof for a dereference of an absent neighbor. -/
def dExistenceProof : ExistenceProof := ⟨none, none, none, []⟩

/-! ## ops.ts : hash, length and operator evaluation -/

/-- ops.ts doHash: only SHA-256 is computable; everything else throws
"Unsupported hashop". The digest function itself is the external primitive
`sha`. -/
def doHashE (sha : Bytes → Bytes) (hashOp : HashOp) (preimage : Bytes) : Except String Bytes :=
  if hashOp = .SHA256 then .ok (sha preimage) else .error "Unsupported hashop"

/-- ops.ts doHashOrNoop: NO_HASH returns the preimage untouched, otherwise
doHash. -/
def doHashOrNoopE (sha : Bytes → Bytes) (hashOp : HashOp) (preimage : Bytes) : Except String Bytes :=
  if hashOp = .NO_HASH then .ok preimage else doHashE sha hashOp preimage

/-- JavaScript `%` on nonnegative numbers: `a - b * trunc (a / b)`, which for
nonnegative operands is `a - b * floor (a / b)`. -/
def jsMod (a b : ℚ) : ℚ := a - b * (⌊a / b⌋ : ℤ)

/-- Conversion of a JavaScript number to a `Uint8Array` element (ToUint8):
truncate toward zero, then reduce modulo 256; for the nonnegative numbers the
encoder produces, truncation is the floor. -/
def jsToUint8 (q : ℚ) : Nat := (⌊q⌋).toNat % 256

/-- ops.ts encodeVarintProto, the `while (l >= 128)` loop. The loop variable
is a JavaScript number and `l = l / 128` is true (non-integer) division, so the
loop runs on rationals; bytes are truncated only when the accumulated list is
poured into the `Uint8Array`. -/
def jsVarintLoop (l : ℚ) : List ℚ :=
  if h : 128 ≤ l then
    (jsMod l 128 + 128) :: jsVarintLoop (l / 128)
  else [l]
termination_by ⌊l⌋₊
decreasing_by
  have h128 : (128:ℕ) ≤ ⌊l⌋₊ := Nat.le_floor (by exact_mod_cast h)
  have : ⌊l / (128:ℚ)⌋₊ = ⌊l⌋₊ / 128 := by
    have := Nat.floor_div_nat l 128
    simpa using this
  rw [this]
  exact Nat.div_lt_self (by omega) (by norm_num)

/-- ops.ts encodeVarintProto: run the loop, append the final group, convert
every accumulated number to a byte. -/
def encodeVarintProto (n : ℚ) : List Nat := (jsVarintLoop n).map jsToUint8

/-- ops.ts encodeFixed32Le: 4 little-endian bytes of the length (the source
loop `enc[abs(i-4)] = l % 256; l = floor(l / 256)` unrolled). -/
def encodeFixed32Le (n : Nat) : List Nat :=
  [n % 256, n / 256 % 256, n / 256 / 256 % 256, n / 256 / 256 / 256 % 256]

/-- ops.ts doLengthOp: prepend the selected encoding of the data length. -/
def doLengthOpE (lengthOp : LengthOp) (data : Bytes) : Except String Bytes :=
  match lengthOp with
  | .NO_PREFIX => .ok data
  | .VAR_PROTO => .ok (encodeVarintProto (data.length : ℚ) ++ data)
  | .REQUIRE_32_BYTES => if data.length = 32 then .ok data else .error "Length is not 32 bytes"
  | .REQUIRE_64_BYTES => if data.length = 64 then .ok data else .error "Length is not 64 bytes"
  | .FIXED32_LITTLE => .ok (encodeFixed32Le data.length ++ data)
  | _ => .error "Unsupported lengthop"

/-- ops.ts prepareLeafData: prehash (or not), then apply the length op. -/
def prepareLeafDataE (sha : Bytes → Bytes) (hashOp : HashOp) (lengthOp : LengthOp)
    (data : Bytes) : Except String Bytes := do
  let h ← doHashOrNoopE sha hashOp data
  doLengthOpE lengthOp h

/-- ops.ts applyLeaf: reject empty key or value, build
`prefix ++ prepared key ++ prepared value`, hash it. -/
def applyLeafE (sha : Bytes → Bytes) (leaf : LeafOp) (key value : Bytes) :
    Except String Bytes :=
  if key.length = 0 then .error "Missing key"
  else if value.length = 0 then .error "Missing value"
  else do
    let pkey ← prepareLeafDataE sha leaf.prehashKey leaf.length key
    let pvalue ← prepareLeafDataE sha leaf.prehashValue leaf.length value
    doHashE sha leaf.hash (leaf.pfx ++ pkey ++ pvalue)

/-- ops.ts applyInner: reject an empty child, hash
`prefix ++ child ++ suffix`. -/
def applyInnerE (sha : Bytes → Bytes) (inner : InnerOp) (child : Bytes) :
    Except String Bytes :=
  if child.length = 0 then .error "Inner op needs child value"
  else doHashE sha inner.hash (inner.pfx ++ child ++ inner.sfx)

/-! ## compress.ts : batch compression and decompression

The compression registry in the source is `new Map<Uint8Array, number>()`.
A JavaScript Map compares object keys by reference (SameValueZero), and
`InnerOp.encode(inner).finish()` allocates a fresh `Uint8Array` on every call,
so the registry is keyed by object identity, never by byte content. The
embedding makes the reference semantics explicit: object references are
allocation ids handed out by a counter threaded through the compression
state. -/

/-- State of one compressBatch run: the growing `lookup` table, the
`registry` Map (list of (key object id, index) pairs) and the allocator for
fresh object ids. -/
structure CompressState where
  lookup : List InnerOp
  registry : List (Nat × Nat)
  nextObj : Nat
  deriving DecidableEq

/-- JavaScript `Map.get` on the registry: linear search by key identity. -/
def jsMapGet (m : List (Nat × Nat)) (k : Nat) : Option Nat :=
  (m.find? (fun pr => pr.1 = k)).map (fun pr => pr.2)

/-- compress.ts, body of the `exist.path!.map` callback: encode the inner op
(allocating a fresh `Uint8Array`, hence a fresh object id), look it up in the
registry, and on a miss append the op to the lookup table and record the new
index under the fresh key. -/
def compressPathStep (inner : InnerOp) (st : CompressState) : Nat × CompressState :=
  let sig := st.nextObj
  let st1 : CompressState := ⟨st.lookup, st.registry, st.nextObj + 1⟩
  match jsMapGet st1.registry sig with
  | some idx => (idx, st1)
  | none =>
    let idx := st1.lookup.length
    (idx, ⟨st1.lookup ++ [inner], st1.registry ++ [(sig, idx)], st1.nextObj⟩)

/-- compress.ts, the `exist.path!.map(...)` traversal. -/
def compressPathGo : List InnerOp → CompressState → List Nat × CompressState
  | [], st => ([], st)
  | inner :: rest, st =>
    match compressPathStep inner st with
    | (idx, st1) =>
      match compressPathGo rest st1 with
      | (idxs, st2) => (idx :: idxs, st2)

/-- compress.ts compressExist on a present existence proof. -/
def compressExistS (e : ExistenceProof) (st : CompressState) :
    CompressedExistenceProof × CompressState :=
  match compressPathGo e.path st with
  | (idxs, st1) => (⟨e.key, e.value, e.leaf, idxs⟩, st1)

/-- compress.ts compressExist: `undefined` in, `undefined` out. -/
def compressExistO (oe : Option ExistenceProof) (st : CompressState) :
    Option CompressedExistenceProof × CompressState :=
  match oe with
  | none => (none, st)
  | some e =>
    match compressExistS e st with
    | (ce, st1) => (some ce, st1)

/-- compress.ts compressBatch, the loop over `proof.entries`. -/
def compressEntriesGo : List BatchEntry → CompressState → List CompressedBatchEntry × CompressState
  | [], st => ([], st)
  | BatchEntry.exist e :: rest, st =>
    match compressExistS e st with
    | (ce, st1) =>
      match compressEntriesGo rest st1 with
      | (crest, st2) => (CompressedBatchEntry.exist ce :: crest, st2)
  | BatchEntry.nonexist ne :: rest, st =>
    match compressExistO ne.left st with
    | (cl, st1) =>
      match compressExistO ne.right st1 with
      | (cr, st2) =>
        match compressEntriesGo rest st2 with
        | (crest, st3) => (CompressedBatchEntry.nonexist ⟨ne.key, cl, cr⟩ :: crest, st3)

/-- compress.ts compressBatch. -/
def compressBatch (proof : BatchProof) : CompressedBatchProof :=
  match compressEntriesGo proof.entries ⟨[], [], 0⟩ with
  | (centries, st) => ⟨centries, st.lookup⟩

/-- compress.ts compress: only batch proofs change shape. -/
def compress (proof : CommitmentProof) : CommitmentProof :=
  match proof with
  | .batch b => .compressed (compressBatch b)
  | _ => proof

/-- compress.ts decompressExist: `lookup[idx]`; an out-of-range JavaScript
index yields `undefined`, embedded as the all-default InnerOp (see
`dInnerOp`). -/
def jsLookupAt (lookup : List InnerOp) (idx : Nat) : InnerOp :=
  (lookup.get? idx).getD dInnerOp

/-- compress.ts decompressExist on a present compressed proof. -/
def decompressExistS (ce : CompressedExistenceProof) (lookup : List InnerOp) :
    ExistenceProof :=
  ⟨ce.key, ce.value, ce.leaf, ce.path.map (jsLookupAt lookup)⟩

/-- compress.ts decompressExist: `undefined` in, `undefined` out. -/
def decompressExistO (oce : Option CompressedExistenceProof) (lookup : List InnerOp) :
    Option ExistenceProof :=
  oce.map (fun ce => decompressExistS ce lookup)

/-- compress.ts decompressBatch, the `proof.entries!.map` callback. -/
def decompressEntry (lookup : List InnerOp) (comp : CompressedBatchEntry) : BatchEntry :=
  match comp with
  | .exist ce => .exist (decompressExistS ce lookup)
  | .nonexist cn =>
    .nonexist ⟨cn.key, decompressExistO cn.left lookup, decompressExistO cn.right lookup⟩

/-- compress.ts decompressBatch. -/
def decompressBatch (proof : CompressedBatchProof) : BatchProof :=
  ⟨proof.entries.map (decompressEntry proof.lookupInners)⟩

/-- compress.ts decompress: only compressed proofs change shape. -/
def decompress (proof : CommitmentProof) : CommitmentProof :=
  match proof with
  | .compressed c => .batch (decompressBatch c)
  | _ => proof

/-! ## proofs.ts : existence and non-existence verification -/

/-- proofs.ts keyForComparison: the raw key, or its leaf-spec prehash when the
spec asks for pre-hashed comparison. -/
def keyForComparisonE (sha : Bytes → Bytes) (spec : ProofSpec) (key : Bytes) :
    Except String Bytes :=
  if spec.prehashKeyBeforeComparison = false then .ok key
  else doHashE sha (spec.leafSpec.getD dLeafOp).prehashKey key

/-- Modelled from the spec: specs.ts is not under src/. `ensureLeaf` requires
the leaf operator to equal the leaf spec on all five fields. -/
def ensureLeafE (leaf : LeafOp) (leafSpec : LeafOp) : Except String Unit :=
  if leaf.hash ≠ leafSpec.hash then .error "Unexpected hashOp"
  else if leaf.prehashKey ≠ leafSpec.prehashKey then .error "Unexpected prehashKey"
  else if leaf.prehashValue ≠ leafSpec.prehashValue then .error "Unexpected prehashValue"
  else if leaf.length ≠ leafSpec.length then .error "Unexpected lengthOp"
  else if bytesEqual leaf.pfx leafSpec.pfx = false then .error "Incorrect leaf op"
  else .ok ()

/-- Modelled from the spec: specs.ts is not under src/. `ensureInner` requires
the inner hash to match the spec, forbids an inner op whose byte prefix starts
with the leaf prefix, and bounds the byte-prefix length by
`minPrefixLength` and `maxPrefixLength + (branching - 1) * childSize`. -/
def ensureInnerE (inner : InnerOp) (leafPfx : Bytes) (ispec : InnerSpec) :
    Except String Unit :=
  if inner.hash ≠ ispec.hash then .error "Unexpected hashOp"
  else if leafPfx.isPrefixOf inner.pfx then .error "Inner node with leaf prefix"
  else if inner.pfx.length < ispec.minPrefixLength then .error "Inner prefix too short"
  else if (inner.pfx.length : ℤ) >
      (ispec.maxPrefixLength : ℤ) + ((ispec.childOrder.length : ℤ) - 1) * (ispec.childSize : ℤ)
    then .error "Inner prefix too long"
  else .ok ()

/-- proofs.ts ensureSpec, the loop over the path steps. -/
def ensureInnerAllE (path : List InnerOp) (leafPfx : Bytes) (ispec : InnerSpec) :
    Except String Unit :=
  match path with
  | [] => .ok ()
  | inner :: rest => do
    ensureInnerE inner leafPfx ispec
    ensureInnerAllE rest leafPfx ispec

/-- proofs.ts ensureSpec: leaf and spec parts present, leaf matches the leaf
spec, depth within the (nonzero) bounds, every inner op matches the inner
spec. -/
def ensureSpecE (proof : ExistenceProof) (spec : ProofSpec) : Except String Unit :=
  match proof.leaf with
  | none => .error "Existence proof must start with a leaf operation"
  | some leaf =>
    match spec.leafSpec with
    | none => .error "Spec must include leafSpec"
    | some leafSpec =>
      match spec.innerSpec with
      | none => .error "Spec must include innerSpec"
      | some ispec => do
        ensureLeafE leaf leafSpec
        if spec.minDepth ≠ 0 ∧ proof.path.length < spec.minDepth then
          .error "Too few inner nodes"
        else if spec.maxDepth ≠ 0 ∧ spec.maxDepth < proof.path.length then
          .error "Too many inner nodes"
        else ensureInnerAllE proof.path leafSpec.pfx ispec

/-- proofs.ts calculateExistenceRoot, the `for (const inner of path)` loop. -/
def runInnersE (sha : Bytes → Bytes) : List InnerOp → Bytes → Except String Bytes
  | [], res => .ok res
  | inner :: rest, res => do
    let next ← applyInnerE sha inner res
    runInnersE sha rest next

/-- proofs.ts calculateExistenceRoot: key, value and leaf must be present;
hash the leaf, then fold the inner ops over it bottom-up. -/
def calculateExistenceRootE (sha : Bytes → Bytes) (proof : ExistenceProof) :
    Except String Bytes :=
  match proof.key, proof.value with
  | some key, some value =>
    match proof.leaf with
    | some leaf => do
      let res ← applyLeafE sha leaf key value
      runInnersE sha proof.path res
    | none => .error "Existence proof must start with a leaf operation"
  | _, _ => .error "Existence proof needs key and value set"

/-- proofs.ts verifyExistence: spec conformance, recomputed root equals the
declared root, proof key/value equal the queried key/value. -/
def verifyExistenceE (sha : Bytes → Bytes) (proof : ExistenceProof) (spec : ProofSpec)
    (root key value : Bytes) : Except String Unit := do
  ensureSpecE proof spec
  let calcd ← calculateExistenceRootE sha proof
  ensureBytesEqualE calcd root
  ensureBytesEqualE key (ob proof.key)
  ensureBytesEqualE value (ob proof.value)

/-- proofs.ts getPosition result record (source fields minPrefix / maxPrefix /
suffix). All three live in ℤ because a JavaScript findIndex miss returns -1
and the padding arithmetic then goes negative. -/
structure PaddingResult where
  minPfx : ℤ
  maxPfx : ℤ
  sfx : ℤ
  deriving DecidableEq

/-- JavaScript `Array.findIndex`: index of the first match, -1 on a miss. -/
def jsFindIdx (p : Nat → Bool) (l : List Nat) : ℤ :=
  let i := l.findIdx p
  if i = l.length then -1 else (i : ℤ)

/-- proofs.ts getPosition: bounds-check the branch, then find its position in
the child order. -/
def getPositionE (order : List Nat) (branch : ℤ) : Except String ℤ :=
  if branch < 0 ∨ (order.length : ℤ) ≤ branch then .error "Invalid branch"
  else .ok (jsFindIdx (fun val => (val : ℤ) = branch) order)

/-- proofs.ts getPadding: how many child slots sit before (prefix) and after
(suffix) the given branch. -/
def getPaddingE (ispec : InnerSpec) (branch : ℤ) : Except String PaddingResult := do
  let idx ← getPositionE ispec.childOrder branch
  .ok ⟨idx * ispec.childSize + ispec.minPrefixLength,
       idx * ispec.childSize + ispec.maxPrefixLength,
       ((ispec.childOrder.length : ℤ) - 1 - idx) * ispec.childSize⟩

/-- proofs.ts hasPadding: prefix length within bounds and suffix length
exact. -/
def hasPadding (op : InnerOp) (pad : PaddingResult) : Bool :=
  if (op.pfx.length : ℤ) < pad.minPfx then false
  else if pad.maxPfx < (op.pfx.length : ℤ) then false
  else (op.sfx.length : ℤ) = pad.sfx

/-- proofs.ts ensureLeftMost: every step padded as branch 0. -/
def ensureLeftMostE (ispec : InnerSpec) (path : List InnerOp) : Except String Unit := do
  let pad ← getPaddingE ispec 0
  if path.all (fun step => hasPadding step pad) then .ok ()
  else .error "Step not leftmost"

/-- proofs.ts ensureRightMost: every step padded as the last branch. -/
def ensureRightMostE (ispec : InnerSpec) (path : List InnerOp) : Except String Unit := do
  let pad ← getPaddingE ispec ((ispec.childOrder.length : ℤ) - 1)
  if path.all (fun step => hasPadding step pad) then .ok ()
  else .error "Step not leftmost"

/-- proofs.ts orderFromPadding, the loop over candidate branches. -/
def orderFromPaddingGo (ispec : InnerSpec) (inner : InnerOp) : List Nat → Except String ℤ
  | [] => .error "Cannot find any valid spacing for this node"
  | branch :: rest =>
    match getPaddingE ispec (branch : ℤ) with
    | .error e => .error e
    | .ok pad =>
      if hasPadding inner pad then .ok (branch : ℤ)
      else orderFromPaddingGo ispec inner rest

/-- proofs.ts orderFromPadding: the first branch whose padding signature the
op matches. -/
def orderFromPaddingE (ispec : InnerSpec) (inner : InnerOp) : Except String ℤ :=
  orderFromPaddingGo ispec inner (List.range ispec.childOrder.length)

/-- proofs.ts isLeftStep: the right op sits exactly one branch after the left
op. -/
def isLeftStepE (ispec : InnerSpec) (left right : InnerOp) : Except String Bool := do
  let leftidx ← orderFromPaddingE ispec left
  let rightidx ← orderFromPaddingE ispec right
  .ok (rightidx = leftidx + 1)

/-- JavaScript `Array.pop`: the last element (or `undefined`) and the shortened
array. -/
def jsPop (l : List InnerOp) : Option InnerOp × List InnerOp :=
  (l.getLast?, l.dropLast)

/-- proofs.ts ensureLeftNeighbor, the `while` loop popping identical tops.
Re-evaluating the condition after the stacks are exhausted dereferences
`undefined` (`topleft.prefix!`), which throws a TypeError. -/
def lnLoop : List InnerOp → List InnerOp → Option InnerOp → Option InnerOp →
    Except String (InnerOp × InnerOp × List InnerOp × List InnerOp)
  | ml, mr, some tl, some tr =>
    if bytesEqual tl.pfx tr.pfx && bytesEqual tl.sfx tr.sfx then
      lnLoop ml.dropLast mr.dropLast ml.getLast? mr.getLast?
    else .ok (tl, tr, ml, mr)
  | _, _, _, _ => .error "TypeError: cannot read properties of undefined"
termination_by ml _ otl _ => ml.length + (if otl.isSome then 1 else 0)
decreasing_by
  cases ml with
  | nil => simp
  | cons a l =>
    have h1 : (a :: l).dropLast.length = l.length := by
      simp [List.length_dropLast]
    have h2 : (a :: l).getLast?.isSome = true := by
      simp [List.getLast?_isSome]
    simp [h1, h2]

/-- proofs.ts ensureLeftNeighbor: pop identical tops, require the divergent
tops to be adjacent siblings, and the remainders to be extremal. -/
def ensureLeftNeighborE (ispec : InnerSpec) (left right : List InnerOp) :
    Except String Unit := do
  match jsPop left, jsPop right with
  | (otl, mutleft), (otr, mutright) =>
    match lnLoop mutleft mutright otl otr with
    | .error e => .error e
    | .ok (topleft, topright, ml, mr) => do
      let isLeft ← isLeftStepE ispec topleft topright
      if isLeft = false then .error "Not left neightbor at first divergent step"
      else do
        ensureRightMostE ispec ml
        ensureLeftMostE ispec mr

/-- proofs.ts verifyNonExistence: verify the neighbors that are present,
require at least one, check the key ordering against each present neighbor
under the comparison mapping, then check the tree-shape adjacency. The
sequential statements of the source are the monadic sequence below; the
early-return throw on a missing bracket is the guard step. -/
def verifyNonExistenceE (sha : Bytes → Bytes) (proof : NonExistenceProof)
    (spec : ProofSpec) (root key : Bytes) : Except String Unit :=
  (match proof.left with
   | some l => verifyExistenceE sha l spec root (ob l.key) (ob l.value)
   | none => .ok ()) >>= fun _ =>
  (match proof.right with
   | some r => verifyExistenceE sha r spec root (ob r.key) (ob r.value)
   | none => .ok ()) >>= fun _ =>
  (if (proof.left.bind ExistenceProof.key).isNone
      && (proof.right.bind ExistenceProof.key).isNone then
    .error "neither left nor right proof defined"
   else .ok ()) >>= fun _ =>
  (match proof.left.bind ExistenceProof.key with
   | some lk =>
     keyForComparisonE sha spec lk >>= fun a =>
     keyForComparisonE sha spec key >>= fun b =>
     ensureBytesBeforeE a b
   | none => .ok ()) >>= fun _ =>
  (match proof.right.bind ExistenceProof.key with
   | some rk =>
     keyForComparisonE sha spec key >>= fun a =>
     keyForComparisonE sha spec rk >>= fun b =>
     ensureBytesBeforeE a b
   | none => .ok ()) >>= fun _ =>
  (match spec.innerSpec with
   | none => .error "no inner spec"
   | some ispec =>
     match proof.left.bind ExistenceProof.key with
     | none => ensureLeftMostE ispec (proof.right.getD dExistenceProof).path
     | some _ =>
       match proof.right.bind ExistenceProof.key with
       | none => ensureRightMostE ispec (proof.left.getD dExistenceProof).path
       | some _ =>
         ensureLeftNeighborE ispec (proof.left.getD dExistenceProof).path
           (proof.right.getD dExistenceProof).path)

/-! ## ics23.ts : top-level API -/

/-- ics23.ts getExistForKey, the `match` predicate: a present candidate whose
key byte-equals the queried key. -/
def existMatch (key : Bytes) (p : Option ExistenceProof) : Bool :=
  match p with
  | some e => bytesEqual key (ob e.key)
  | none => false

/-- The `exist` field of a batch entry (`x.exist || null`). -/
def entryExist (ent : BatchEntry) : Option ExistenceProof :=
  match ent with
  | .exist e => some e
  | .nonexist _ => none

/-- ics23.ts getExistForKey: the directly attached existence proof if it
matches, otherwise the first matching existence entry of a batch. -/
def getExistForKey (proof : CommitmentProof) (key : Bytes) : Option ExistenceProof :=
  let pe : Option ExistenceProof :=
    match proof with
    | .exist e => some e
    | _ => none
  if existMatch key pe then pe
  else
    match proof with
    | .batch b => ((b.entries.map entryExist).find? (existMatch key)).bind id
    | _ => none

/-- ics23.ts getNonExistForKey, the `match` predicate: present, and the queried
key falls strictly inside the candidate's bracket under the comparison
mapping (the comparisons run left side first and short-circuit, so their
hashing errors propagate in that order). -/
def neMatchE (sha : Bytes → Bytes) (spec : ProofSpec) (key : Bytes)
    (p : Option NonExistenceProof) : Except String Bool :=
  match p with
  | none => .ok false
  | some ne => do
    let leftOk ←
      match ne.left with
      | none => pure true
      | some l => do
        let a ← keyForComparisonE sha spec (ob l.key)
        let b ← keyForComparisonE sha spec key
        pure (bytesBefore a b)
    if leftOk = false then pure false
    else
      match ne.right with
      | none => pure true
      | some r => do
        let a ← keyForComparisonE sha spec key
        let b ← keyForComparisonE sha spec (ob r.key)
        pure (bytesBefore a b)

/-- ics23.ts getNonExistForKey, the loop over batch entries. -/
def findNonExistGo (sha : Bytes → Bytes) (spec : ProofSpec) (key : Bytes) :
    List BatchEntry → Except String (Option NonExistenceProof)
  | [] => .ok none
  | ent :: rest => do
    let candidate : Option NonExistenceProof :=
      match ent with
      | .nonexist ne => some ne
      | .exist _ => none
    let m ← neMatchE sha spec key candidate
    if m then pure candidate else findNonExistGo sha spec key rest

/-- ics23.ts getNonExistForKey: the directly attached non-existence proof if
its bracket matches, otherwise the first matching non-existence entry of a
batch. -/
def getNonExistForKeyE (sha : Bytes → Bytes) (spec : ProofSpec)
    (proof : CommitmentProof) (key : Bytes) : Except String (Option NonExistenceProof) := do
  let pne : Option NonExistenceProof :=
    match proof with
    | .nonexist ne => some ne
    | _ => none
  let m ← neMatchE sha spec key pne
  if m then pure pne
  else
    match proof with
    | .batch b => findNonExistGo sha spec key b.entries
    | _ => pure none

/-- ics23.ts verifyMembership. Note that `decompress` and the key search run
before the `try` block; only `verifyExistence` is inside it. -/
def verifyMembershipE (sha : Bytes → Bytes) (proof : CommitmentProof) (spec : ProofSpec)
    (root key value : Bytes) : Except String Bool :=
  let norm := decompress proof
  match getExistForKey norm key with
  | none => .ok false
  | some e =>
    match verifyExistenceE sha e spec root key value with
    | .ok _ => .ok true
    | .error _ => .ok false

/-- ics23.ts verifyNonMembership. `decompress` and `getNonExistForKey` run
before the `try` block; only `verifyNonExistence` is inside it. -/
def verifyNonMembershipE (sha : Bytes → Bytes) (proof : CommitmentProof) (spec : ProofSpec)
    (root key : Bytes) : Except String Bool := do
  let norm := decompress proof
  let onexist ← getNonExistForKeyE sha spec norm key
  match onexist with
  | none => pure false
  | some nonexist =>
    match verifyNonExistenceE sha nonexist spec root key with
    | .ok _ => pure true
    | .error _ => pure false

/-- ics23.ts batchVerifyMembership, the loop over the queried items. -/
def batchVerifyMembershipGo (sha : Bytes → Bytes) (norm : CommitmentProof)
    (spec : ProofSpec) (root : Bytes) : List (Bytes × Bytes) → Except String Bool
  | [] => .ok true
  | (key, value) :: rest => do
    let ok ← verifyMembershipE sha norm spec root key value
    if ok then batchVerifyMembershipGo sha norm spec root rest else pure false

/-- ics23.ts batchVerifyMembership: decompress once, then verify every queried
item, short-circuiting on the first failure. -/
def batchVerifyMembershipE (sha : Bytes → Bytes) (proof : CommitmentProof)
    (spec : ProofSpec) (root : Bytes) (items : List (Bytes × Bytes)) : Except String Bool :=
  batchVerifyMembershipGo sha (decompress proof) spec root items

/-- ics23.ts batchVerifyNonMembership, the loop over the queried keys. -/
def batchVerifyNonMembershipGo (sha : Bytes → Bytes) (norm : CommitmentProof)
    (spec : ProofSpec) (root : Bytes) : List Bytes → Except String Bool
  | [] => .ok true
  | key :: rest => do
    let ok ← verifyNonMembershipE sha norm spec root key
    if ok then batchVerifyNonMembershipGo sha norm spec root rest else pure false

/-- ics23.ts batchVerifyNonMembership. -/
def batchVerifyNonMembershipE (sha : Bytes → Bytes) (proof : CommitmentProof)
    (spec : ProofSpec) (root : Bytes) (keys : List Bytes) : Except String Bool :=
  batchVerifyNonMembershipGo sha (decompress proof) spec root keys

/-! ## webcat.ts : the sparse-Merkle sidecar verifier -/

/-- UTF-8 bytes of a string; every string this file encodes is plain ASCII,
for which UTF-8 is the character code itself. -/
def utf8Bytes (s : String) : Bytes := s.data.map Char.toNat

/-- webcat.ts hexVal of one character (the `[0-9a-f]` test, case
insensitive). -/
def hexVal (c : Char) : Option Nat :=
  if '0' ≤ c ∧ c ≤ '9' then some (c.toNat - '0'.toNat)
  else if 'a' ≤ c ∧ c ≤ 'f' then some (c.toNat - 'a'.toNat + 10)
  else if 'A' ≤ c ∧ c ≤ 'F' then some (c.toNat - 'A'.toNat + 10)
  else none

/-- webcat.ts fromHex, the loop over two-character groups. -/
def fromHexGo : List Char → Except String Bytes
  | [] => .ok []
  | c1 :: c2 :: rest => do
    match hexVal c1, hexVal c2 with
    | some a, some b => do
      let tail ← fromHexGo rest
      .ok ((a * 16 + b) :: tail)
    | _, _ => .error "hex string contains invalid characters"
  | [_] => .error "hex string contains invalid characters"

/-- webcat.ts fromHex: even length, then decode pairs of hex digits. -/
def fromHexE (s : String) : Except String Bytes :=
  if s.length % 2 ≠ 0 then .error "hex string length must be a multiple of 2"
  else fromHexGo s.data

/-- webcat.ts leafPrefix: UTF-8 of "JMT::LeafNode". -/
def leafPfxW : Bytes := utf8Bytes "JMT::LeafNode"

/-- webcat.ts innerPrefix: UTF-8 of "JMT::IntrnalNode" exactly as written in
the source (the historical jellyfish-merkle domain-separator typo). -/
def innerPfxW : Bytes := utf8Bytes "JMT::IntrnalNode"

/-- webcat.ts placeholderMarker. -/
def placeholderMarker : String := "SPARSE_MERKLE_PLACEHOLDER_HASH__"

/-- webcat.ts webcatSpec. -/
def webcatSpec : ProofSpec :=
  { leafSpec := some ⟨.SHA256, .SHA256, .SHA256, .NO_PREFIX, leafPfxW⟩
    innerSpec := some ⟨[0, 1], 32, innerPfxW.length, innerPfxW.length, [], .SHA256⟩
    minDepth := 0
    maxDepth := 256
    prehashKeyBeforeComparison := true }

/-- webcat.ts canonicalizeKey: strip one leading "canonical/". -/
def canonicalizeKey (key : String) : String :=
  if "canonical/".isPrefixOf key then key.drop 10 else key

/-- webcat.ts leafHash:
`SHA256(leafPrefix ++ SHA256(canonicalKey) ++ SHA256(value))`. -/
def leafHashE (sha : Bytes → Bytes) (key valueHex : String) : Except String Bytes := do
  let hashedKey ← doHashE sha .SHA256 (utf8Bytes (canonicalizeKey key))
  let rawValue ← fromHexE valueHex
  let hashedValue ← doHashE sha .SHA256 rawValue
  doHashE sha .SHA256 (leafPfxW ++ hashedKey ++ hashedValue)

/-- webcat.ts combineChildren:
`SHA256(innerPrefix ++ left ++ right)`. -/
def combineChildrenE (sha : Bytes → Bytes) (left right : Bytes) : Except String Bytes :=
  doHashE sha .SHA256 (innerPfxW ++ left ++ right)

/-- webcat.ts PreparedLeaf. -/
structure PreparedLeaf where
  keyHash : Bytes
  nodeHash : Bytes
  deriving DecidableEq

/-- webcat.ts bitIsSet: the depth-th bit of the key hash, MSB first within
each byte; a read past the end of the hash sees byte 0. -/
def bitIsSet (hash : Bytes) (depth : Nat) : Bool :=
  Nat.testBit ((hash.get? (depth / 8)).getD 0) (7 - depth % 8)

/-- webcat.ts prepareLeaves, the loop over (key, valueHex) pairs. -/
def prepareLeavesE (sha : Bytes → Bytes) :
    List (String × String) → Except String (List PreparedLeaf)
  | [] => .ok []
  | (key, valueHex) :: rest => do
    let keyHash ← doHashE sha .SHA256 (utf8Bytes (canonicalizeKey key))
    let nodeHash ← leafHashE sha key valueHex
    let tail ← prepareLeavesE sha rest
    .ok (⟨keyHash, nodeHash⟩ :: tail)

/-- webcat.ts buildJmtRoot: placeholder for an empty set, the node hash for a
single leaf or at depth 256, otherwise partition the leaves on the current bit
of the key hash, recurse (placeholder for an empty side) and combine. -/
def buildJmtRootE (sha : Bytes → Bytes) (placeholder : Bytes)
    (leaves : List PreparedLeaf) (depth : Nat) : Except String Bytes :=
  if leaves.length = 0 then .ok placeholder
  else if leaves.length = 1 ∨ 256 ≤ depth then
    .ok ((leaves.headD ⟨[], []⟩).nodeHash)
  else do
    let left := leaves.filter (fun lf => bitIsSet lf.keyHash depth = false)
    let right := leaves.filter (fun lf => bitIsSet lf.keyHash depth)
    let leftHash ←
      if left.length ≠ 0 then buildJmtRootE sha placeholder left (depth + 1)
      else pure placeholder
    let rightHash ←
      if right.length ≠ 0 then buildJmtRootE sha placeholder right (depth + 1)
      else pure placeholder
    combineChildrenE sha leftHash rightHash
termination_by 256 - depth
decreasing_by
  all_goals
    rename_i h1 h2
    simp at h2
    omega

/-- webcat.ts normalizeLeaf: a leaf entry needs at least a key and a value;
further elements are dropped. -/
def normalizeLeafE (leaf : List String) : Except String (String × String) :=
  if leaf.length < 2 then .error "Leaf entry must contain a key and value"
  else .ok ((leaf.get? 0).getD "", (leaf.get? 1).getD "")

/-- webcat.ts reconstructCanonicalRoot, applied to already-normalized leaves
(the source re-applies normalizeLeaf to the pairs, which is the identity
there). -/
def reconstructCanonicalRootE (sha : Bytes → Bytes) (leaves : List (String × String)) :
    Except String Bytes := do
  let placeholder ← doHashE sha .SHA256 (utf8Bytes placeholderMarker)
  if leaves.length = 0 then pure placeholder
  else do
    let prepared ← prepareLeavesE sha leaves
    buildJmtRootE sha placeholder prepared 0

/-- webcat.ts WebcatLeavesFile (hex fields kept as strings; the protobuf blob
list as hex strings). -/
structure WebcatLeavesFile where
  blockHeight : Nat
  leaves : List (List String)
  appHash : String
  canonicalRootHash : String
  proofBytes : List String

/-- webcat.ts verifyCanonicalRootLink: decode the last proof blob (the decoder
itself is the external protobuf layer, passed as `decode`), require an
existence proof, and verify it for key "canonical" and the canonical root as
value against the app hash under the webcat spec. -/
def verifyCanonicalRootLinkE (sha : Bytes → Bytes)
    (decode : Bytes → Except String CommitmentProof)
    (appHashHex canonicalRootHex : String) (proofBytes : List String) :
    Except String Bool :=
  if proofBytes.length = 0 then .ok false
  else do
    let pbytes ← fromHexE ((proofBytes.get? (proofBytes.length - 1)).getD "")
    let canonicalProof ← decode pbytes
    match canonicalProof with
    | .exist e => do
      let appHash ← fromHexE appHashHex
      let canonicalRoot ← fromHexE canonicalRootHex
      verifyExistenceE sha e webcatSpec appHash (utf8Bytes "canonical") canonicalRoot
      pure true
    | _ => .ok false

/-- webcat.ts verifyWebcatProof, the body inside the `try` block: `none`
models the explicit `return false` paths, a thrown error is an `.error`. -/
def webcatBodyE (sha : Bytes → Bytes) (decode : Bytes → Except String CommitmentProof)
    (data : WebcatLeavesFile) : Except String (Option (List (String × String))) := do
  let normalizedLeaves ← data.leaves.mapM normalizeLeafE
  let reconstructedRoot ← reconstructCanonicalRootE sha normalizedLeaves
  let canonicalRootBytes ← fromHexE data.canonicalRootHash
  if bytesEqual reconstructedRoot canonicalRootBytes = false then pure none
  else do
    let linkValid ← verifyCanonicalRootLinkE sha decode data.appHash
      data.canonicalRootHash data.proofBytes
    if linkValid = false then pure none
    else pure (some normalizedLeaves)

/-- webcat.ts verifyWebcatProof: the whole body runs inside `try`, every
thrown error is caught and mapped to `false` (here `none`). -/
def verifyWebcatProof (sha : Bytes → Bytes) (decode : Bytes → Except String CommitmentProof)
    (data : WebcatLeavesFile) : Option (List (String × String)) :=
  match webcatBodyE sha decode data with
  | .ok r => r
  | .error _ => none

/-! ## Reference definitions and concrete inputs for the claim theorems -/

/-- Written from the spec wording for the VAR_PROTO length op: emit base-128
groups of the length, least-significant group first, each 7-bit group OR 0x80
except the final group. This is the reference the source encoder is compared
against. -/
def varintSpec (n : Nat) : List Nat :=
  if n < 128 then [n] else (n % 128 + 128) :: varintSpec (n / 128)
termination_by n
decreasing_by exact Nat.div_lt_self (by omega) (by norm_num)

/-- A simple stand-in digest used to instantiate the external `sha` parameter
in concrete witnesses (any function works; the theorems quantify over it). -/
def idSha : Bytes → Bytes := fun b => b

/-- A trivial stand-in for the external protobuf decoder in webcat
witnesses. -/
def noDecode : Bytes → Except String CommitmentProof :=
  fun _ => .error "no decoder"

/-- Leaf op used by the concrete examples: SHA256 of key then value, no
prehash, no length op, empty byte prefix. -/
def lfW : LeafOp := ⟨.SHA256, .NO_HASH, .NO_HASH, .NO_PREFIX, []⟩

/-- Inner spec used by the concrete examples (binary order, childSize 32,
byte-prefix bounds 1..1). -/
def isW : InnerSpec := ⟨[0, 1], 32, 1, 1, [], .SHA256⟩

/-- Proof spec used by the concrete examples. -/
def sW : ProofSpec := ⟨some lfW, some isW, 0, 0, false⟩

/-- Existence proof for key [1] / value [2] with an empty path; under `idSha`
its root is [1, 2]. -/
def eW : ExistenceProof := ⟨some [1], some [2], some lfW, []⟩

/-- Existence proof with the same key [1] but value [9]; under `idSha` and
root [1, 2] its verification fails on the root comparison. -/
def eBadW : ExistenceProof := ⟨some [1], some [9], some lfW, []⟩

/-- Batch with two entries for the same key [1]: the failing one first, the
verifying one second. -/
def bW : BatchProof := ⟨[.exist eBadW, .exist eW]⟩

/-- Right neighbor used by the non-existence witness: key [2] / value [3],
empty path, root [2, 3] under `idSha`. -/
def rW : ExistenceProof := ⟨some [2], some [3], some lfW, []⟩

/-- Non-existence proof with only the right neighbor, bracketing key [1]. -/
def neW : NonExistenceProof := ⟨some [1], none, some rW⟩

/-- Spec that pre-hashes comparison keys although its leaf spec declares
NO_HASH as the key prehash; searching for a non-existence proof under it
throws outside the try block of verifyNonMembership. -/
def sC1 : ProofSpec := ⟨some lfW, some isW, 0, 0, true⟩

/-- Non-existence proof whose left neighbor forces the comparison-key hashing
during the search. -/
def pC1 : CommitmentProof :=
  .nonexist ⟨some [1], some ⟨some [0], some [0], none, []⟩, none⟩

/-- An inner op occurring twice across the batch below. -/
def iopC2 : InnerOp := ⟨.SHA256, [170], []⟩

/-- Existence proof whose path holds `iopC2`. -/
def eC2 : ExistenceProof := ⟨some [1], some [2], some lfW, [iopC2]⟩

/-- Batch with two existence entries sharing the byte-identical inner op. -/
def pC2 : CommitmentProof := .batch ⟨[.exist eC2, .exist eC2]⟩

/-- Inner op shared by both neighbor paths of the C10 witness. -/
def iopC10 : InnerOp := ⟨.SHA256, [7], []⟩

/-- Non-existence proof whose left and right neighbor paths are step-for-step
identical. -/
def neC10 : NonExistenceProof :=
  ⟨some [1], some ⟨some [0], some [0], some lfW, [iopC10]⟩,
    some ⟨some [2], some [2], some lfW, [iopC10]⟩⟩

/-- Existence proof with no key, for the calculateExistenceRoot error case. -/
def eNoKey : ExistenceProof := ⟨none, some [2], some lfW, []⟩

/-- Two inner ops whose byte prefix and suffix agree (the popping condition
of ensureLeftNeighbor). -/
def stepEq (a b : InnerOp) : Prop :=
  bytesEqual a.pfx b.pfx = true ∧ bytesEqual a.sfx b.sfx = true

/-! ## Theorems -/

theorem toNat_floor_eq_natFloor (l : ℚ) (hl : 0 ≤ l) : (⌊l⌋).toNat = ⌊l⌋₊ := by
  rw [← Int.natCast_floor_eq_floor hl, Int.toNat_natCast]

theorem floorNat_div_128 (l : ℚ) : ⌊l / (128:ℚ)⌋₊ = ⌊l⌋₊ / 128 := by
  have := Nat.floor_div_nat (α := ℚ) l 128
  simpa using this

theorem jsToUint8_head (l : ℚ) (hl : 0 ≤ l) :
    jsToUint8 (jsMod l 128 + 128) = ⌊l⌋₊ % 128 + 128 := by
  have h1 : (0:ℚ) ≤ l / 128 := by positivity
  have hq : (⌊l / (128:ℚ)⌋ : ℤ) = ((⌊l⌋₊ / 128 : ℕ) : ℤ) := by
    rw [← Int.natCast_floor_eq_floor h1, floorNat_div_128]
  have hfl : ⌊l⌋ = (⌊l⌋₊ : ℤ) := (Int.natCast_floor_eq_floor hl).symm
  unfold jsToUint8 jsMod
  have e1 : l - (128:ℚ) * ((⌊l / (128:ℚ)⌋ : ℤ) : ℚ) + 128
      = l + (((128 - 128 * ⌊l / (128:ℚ)⌋ : ℤ) : ℤ) : ℚ) := by
    push_cast
    ring
  rw [e1, Int.floor_add_int, hfl, hq]
  have hm : ⌊l⌋₊ % 128 < 128 := Nat.mod_lt _ (by norm_num)
  have hdm := Nat.div_add_mod ⌊l⌋₊ 128
  omega

theorem jsVarintLoop_toBytes (m : ℕ) : ∀ l : ℚ, 0 ≤ l → ⌊l⌋₊ = m →
    (jsVarintLoop l).map jsToUint8 = varintSpec m := by
  induction m using Nat.strong_induction_on with
  | _ m IH =>
    intro l hl hm
    subst hm
    by_cases h : (128:ℚ) ≤ l
    · have hm128 : 128 ≤ ⌊l⌋₊ := Nat.le_floor (by exact_mod_cast h)
      rw [jsVarintLoop, dif_pos h, varintSpec, if_neg (by omega)]
      simp only [List.map_cons]
      rw [jsToUint8_head l hl]
      have htail := IH (⌊l⌋₊ / 128) (Nat.div_lt_self (by omega) (by norm_num))
        (l / 128) (by positivity) (floorNat_div_128 l)
      rw [htail]
    · have hmlt : ⌊l⌋₊ < 128 := by
        by_contra hge
        push_neg at hge
        apply h
        calc (128:ℚ) ≤ (⌊l⌋₊ : ℚ) := by exact_mod_cast hge
          _ ≤ l := Nat.floor_le hl
      rw [jsVarintLoop, dif_neg h, varintSpec, if_pos hmlt]
      simp only [List.map_cons, List.map_nil]
      unfold jsToUint8
      rw [toNat_floor_eq_natFloor l hl, Nat.mod_eq_of_lt (by omega)]

/-- C8: for every byte sequence, doLengthOp VAR_PROTO prepends exactly the
unsigned base-128 varint of the length (7-bit groups, least significant first,
all but the final group tagged with 0x80), for every length; the JavaScript
loop with its fractional division and Uint8Array truncation computes the same
bytes as the reference encoder. -/
theorem C8_doLengthOp_varProto :
    (∀ data : Bytes, doLengthOpE .VAR_PROTO data = .ok (varintSpec data.length ++ data))
    ∧ (∀ n : ℕ, encodeVarintProto (n : ℚ) = varintSpec n) := by
  have henc : ∀ n : ℕ, encodeVarintProto (n : ℚ) = varintSpec n := by
    intro n
    unfold encodeVarintProto
    rw [jsVarintLoop_toBytes n (n : ℚ) (by positivity) (Nat.floor_natCast n)]
  constructor
  · intro data
    unfold doLengthOpE
    rw [henc data.length]
  · exact henc

theorem exc_bind_ok {α β : Type} (a : α) (f : α → Except String β) :
    ((Except.ok a : Except String α) >>= f) = f a := rfl

theorem exc_bind_error {α β : Type} (msg : String) (f : α → Except String β) :
    ((Except.error msg : Except String α) >>= f) = .error msg := rfl

theorem bytesEqual_self (a : Bytes) : bytesEqual a a = true := by
  simp [bytesEqual]

theorem bytesEqual_eq_true_iff (a b : Bytes) : bytesEqual a b = true ↔ a = b := by
  simp [bytesEqual]

theorem runInnersE_eq_foldlM (sha : Bytes → Bytes) (path : List InnerOp) (res : Bytes) :
    runInnersE sha path res = path.foldlM (fun acc op => applyInnerE sha op acc) res := by
  induction path generalizing res with
  | nil => rfl
  | cons inner rest IH =>
    simp only [runInnersE, List.foldlM]
    cases applyInnerE sha inner res with
    | ok v => rw [exc_bind_ok, exc_bind_ok, IH]
    | error m => rw [exc_bind_error, exc_bind_error]

/-- C6: calculateExistenceRoot errors when key, value or leaf is absent, and
otherwise is the left fold of applyInner over the path seeded with the leaf
hash (path[0] applied first); in particular an empty path returns the leaf
hash itself. -/
theorem C6_calculateExistenceRoot (sha : Bytes → Bytes) (e : ExistenceProof) :
    ((e.key = none ∨ e.value = none ∨ e.leaf = none) →
      ∃ msg, calculateExistenceRootE sha e = .error msg)
    ∧ (∀ k v lf, e.key = some k → e.value = some v → e.leaf = some lf →
        calculateExistenceRootE sha e =
          (applyLeafE sha lf k v) >>=
            fun h => e.path.foldlM (fun acc op => applyInnerE sha op acc) h)
    ∧ (∀ k v lf, e.key = some k → e.value = some v → e.leaf = some lf → e.path = [] →
        calculateExistenceRootE sha e = applyLeafE sha lf k v) := by
  refine ⟨?_, ?_, ?_⟩
  · rintro (hk | hv | hlf)
    · exact ⟨"Existence proof needs key and value set", by simp [calculateExistenceRootE, hk]⟩
    · cases hk : e.key with
      | none => exact ⟨"Existence proof needs key and value set",
          by simp [calculateExistenceRootE, hk]⟩
      | some k => exact ⟨"Existence proof needs key and value set",
          by simp [calculateExistenceRootE, hk, hv]⟩
    · cases hk : e.key with
      | none => exact ⟨"Existence proof needs key and value set",
          by simp [calculateExistenceRootE, hk]⟩
      | some k =>
        cases hv : e.value with
        | none => exact ⟨"Existence proof needs key and value set",
            by simp [calculateExistenceRootE, hk, hv]⟩
        | some v => exact ⟨"Existence proof must start with a leaf operation",
            by simp [calculateExistenceRootE, hk, hv, hlf]⟩
  · intro k v lf hk hv hlf
    simp only [calculateExistenceRootE, hk, hv, hlf]
    cases applyLeafE sha lf k v with
    | ok h => rw [exc_bind_ok, exc_bind_ok, runInnersE_eq_foldlM]
    | error m => rw [exc_bind_error, exc_bind_error]
  · intro k v lf hk hv hlf hp
    simp only [calculateExistenceRootE, hk, hv, hlf, hp]
    cases applyLeafE sha lf k v with
    | ok h => rw [exc_bind_ok]; rfl
    | error m => rw [exc_bind_error]

theorem C6_witness :
    (∃ msg, calculateExistenceRootE idSha eNoKey = .error msg)
    ∧ calculateExistenceRootE idSha eW = applyLeafE idSha lfW [1] [2] :=
  ⟨(C6_calculateExistenceRoot idSha eNoKey).1 (Or.inl rfl),
   (C6_calculateExistenceRoot idSha eW).2.2 [1] [2] lfW rfl rfl rfl rfl⟩

/-- C4: for a well-formed existence proof accepted by ensureSpec, the computed
root equals a candidate root exactly when verifyExistence at the proof's own
key and value succeeds against that root. -/
theorem C4_calcRoot_iff_verifyExistence (sha : Bytes → Bytes) (e : ExistenceProof)
    (s : ProofSpec) (root k v : Bytes)
    (hspec : ensureSpecE e s = .ok ())
    (hk : e.key = some k) (hv : e.value = some v) :
    (calculateExistenceRootE sha e = .ok root) ↔
      (verifyExistenceE sha e s root k v = .ok ()) := by
  constructor
  · intro hcalc
    simp only [verifyExistenceE, hspec, exc_bind_ok, hcalc]
    have h1 : ensureBytesEqualE root root = .ok () := by
      simp [ensureBytesEqualE, bytesEqual_self]
    have h2 : ensureBytesEqualE k (ob e.key) = .ok () := by
      simp [ensureBytesEqualE, hk, ob, bytesEqual_self]
    have h3 : ensureBytesEqualE v (ob e.value) = .ok () := by
      simp [ensureBytesEqualE, hv, ob, bytesEqual_self]
    rw [h1, exc_bind_ok, h2, exc_bind_ok, h3]
  · intro hver
    simp only [verifyExistenceE, hspec, exc_bind_ok] at hver
    cases hcalc : calculateExistenceRootE sha e with
    | error msg => rw [hcalc, exc_bind_error] at hver; exact absurd hver (by simp)
    | ok c =>
      rw [hcalc, exc_bind_ok] at hver
      by_cases hbe : bytesEqual c root
      · rw [(bytesEqual_eq_true_iff c root).mp hbe]
      · rw [show ensureBytesEqualE c root = .error "bytes not equal" from by
          simp [ensureBytesEqualE, hbe], exc_bind_error] at hver
        exact absurd hver (by simp)

theorem C4_witness :
    (calculateExistenceRootE idSha eW = .ok [1, 2]) ↔
      (verifyExistenceE idSha eW sW [1, 2] [1] [2] = .ok ()) :=
  C4_calcRoot_iff_verifyExistence idSha eW sW [1, 2] [1] [2] rfl rfl rfl

theorem getExistForKey_first (b : BatchProof) (pre post : List BatchEntry)
    (e1 : ExistenceProof) (k : Bytes)
    (hent : b.entries = pre ++ BatchEntry.exist e1 :: post)
    (hpre : ∀ ent ∈ pre, existMatch k (entryExist ent) = false)
    (he1 : existMatch k (some e1) = true) :
    getExistForKey (.batch b) k = some e1 := by
  have hfind : ∀ pr : List BatchEntry, (∀ ent ∈ pr, existMatch k (entryExist ent) = false) →
      (((pr ++ BatchEntry.exist e1 :: post).map entryExist).find? (existMatch k))
        = some (some e1) := by
    intro pr
    induction pr with
    | nil =>
      intro _
      simp only [List.nil_append, List.map_cons]
      have hpos : existMatch k (entryExist (BatchEntry.exist e1)) = true := he1
      rw [List.find?_cons_of_pos _ hpos]
      rfl
    | cons ent rest IH =>
      intro hall
      simp only [List.cons_append, List.map_cons]
      rw [List.find?_cons_of_neg, IH]
      · intro x hx
        exact hall x (by simp [hx])
      · simp [hall ent (by simp)]
  simp only [getExistForKey, existMatch]
  rw [if_neg (by simp)]
  rw [hent, hfind pre hpre]
  rfl

/-- C9: in a batch with several existence entries for the queried key, only
the first one (in entry order) is examined: when its verification fails,
verifyMembership answers false even though a later entry with the same key
verifies against the same root and value. -/
theorem C9_first_matching_entry_only (sha : Bytes → Bytes) (s : ProofSpec)
    (r k v : Bytes) (b : BatchProof) (pre post : List BatchEntry)
    (e1 e2 : ExistenceProof) (msg : String)
    (hent : b.entries = pre ++ BatchEntry.exist e1 :: post)
    (hpre : ∀ ent ∈ pre, existMatch k (entryExist ent) = false)
    (he1 : existMatch k (some e1) = true)
    (hfail : verifyExistenceE sha e1 s r k v = .error msg)
    (_he2mem : BatchEntry.exist e2 ∈ post)
    (_he2 : existMatch k (some e2) = true)
    (_hok : verifyExistenceE sha e2 s r k v = .ok ()) :
    verifyMembershipE sha (.batch b) s r k v = .ok false := by
  have hget := getExistForKey_first b pre post e1 k hent hpre he1
  simp only [verifyMembershipE, decompress]
  rw [hget]
  simp only [hfail]

theorem C9_witness : verifyMembershipE idSha (.batch bW) sW [1, 2] [1] [2] = .ok false :=
  C9_first_matching_entry_only idSha sW [1, 2] [1] [2] bW [] [.exist eW]
    eBadW eW "bytes not equal" rfl (by intro ent h; simp at h) rfl
    rfl (by simp) rfl rfl

theorem calcRootE_ok_shape (sha : Bytes → Bytes) (e : ExistenceProof) (c : Bytes)
    (h : calculateExistenceRootE sha e = .ok c) :
    (∃ kk, e.key = some kk) ∧ (∃ vv, e.value = some vv) := by
  rcases hk : e.key with _ | kk
  · unfold calculateExistenceRootE at h
    rw [hk] at h
    rcases hv : e.value with _ | vv
    · rw [hv] at h; simp at h
    · rw [hv] at h; simp at h
  · rcases hv : e.value with _ | vv
    · unfold calculateExistenceRootE at h
      rw [hk, hv] at h
      simp at h
    · exact ⟨⟨kk, rfl⟩, ⟨vv, rfl⟩⟩

theorem verifyExistenceE_ok_keys (sha : Bytes → Bytes) (e : ExistenceProof)
    (s : ProofSpec) (root k v : Bytes)
    (h : verifyExistenceE sha e s root k v = .ok ()) :
    (∃ kk, e.key = some kk) ∧ (∃ vv, e.value = some vv) := by
  unfold verifyExistenceE at h
  cases hs : ensureSpecE e s with
  | error m => rw [hs, exc_bind_error] at h; exact absurd h (by simp)
  | ok u =>
    cases u
    rw [hs, exc_bind_ok] at h
    cases hc : calculateExistenceRootE sha e with
    | error m => rw [hc, exc_bind_error] at h; exact absurd h (by simp)
    | ok c => exact calcRootE_ok_shape sha e c hc

theorem exc_seq_ok {x rest : Except String Unit}
    (h : (x >>= fun _ => rest) = .ok ()) : x = .ok () ∧ rest = .ok () := by
  cases x with
  | error e => exact absurd h (by simp [exc_bind_error])
  | ok u => cases u; exact ⟨rfl, h⟩

/-- C5: a successful verifyNonExistence implies at least one neighbor is
present, and each present neighbor carries a key that brackets the queried key
strictly under the comparison mapping keyForComparison (prehash of the key if
the spec asks for it, identity otherwise). -/
theorem C5_nonexistence_bracket (sha : Bytes → Bytes) (ne : NonExistenceProof)
    (s : ProofSpec) (root k : Bytes)
    (h : verifyNonExistenceE sha ne s root k = .ok ()) :
    (ne.left.isSome ∨ ne.right.isSome)
    ∧ (∀ l, ne.left = some l → ∃ lk ca cb, l.key = some lk ∧
        keyForComparisonE sha s lk = .ok ca ∧ keyForComparisonE sha s k = .ok cb ∧
        bytesBefore ca cb = true)
    ∧ (∀ r, ne.right = some r → ∃ rk ca cb, r.key = some rk ∧
        keyForComparisonE sha s k = .ok ca ∧ keyForComparisonE sha s rk = .ok cb ∧
        bytesBefore ca cb = true) := by
  unfold verifyNonExistenceE at h
  obtain ⟨hstepL, h⟩ := exc_seq_ok h
  obtain ⟨hstepR, h⟩ := exc_seq_ok h
  obtain ⟨hguard, h⟩ := exc_seq_ok h
  obtain ⟨hordL, h⟩ := exc_seq_ok h
  obtain ⟨hordR, hfinal⟩ := exc_seq_ok h
  refine ⟨?_, ?_, ?_⟩
  · cases hln : ne.left with
    | some l => exact Or.inl (by simp [hln])
    | none =>
      cases hrn : ne.right with
      | some r => exact Or.inr (by simp [hrn])
      | none => rw [hln, hrn] at hguard; simp at hguard
  · intro l hl
    rw [hl] at hstepL hordL
    dsimp only [Option.bind] at hordL
    dsimp only at hstepL
    obtain ⟨⟨lk, hlk⟩, -⟩ := verifyExistenceE_ok_keys sha l s root _ _ hstepL
    rw [hlk] at hordL
    dsimp only at hordL
    cases hKa : keyForComparisonE sha s lk with
    | error m => rw [hKa, exc_bind_error] at hordL; exact absurd hordL (by simp)
    | ok ca =>
      rw [hKa, exc_bind_ok] at hordL
      cases hKb : keyForComparisonE sha s k with
      | error m => rw [hKb, exc_bind_error] at hordL; exact absurd hordL (by simp)
      | ok cb =>
        rw [hKb, exc_bind_ok] at hordL
        by_cases hbb : bytesBefore ca cb
        · exact ⟨lk, ca, cb, hlk, hKa, rfl, hbb⟩
        · rw [show ensureBytesBeforeE ca cb = .error "bytes not before" from by
            simp [ensureBytesBeforeE, hbb]] at hordL
          exact absurd hordL (by simp)
  · intro r hr
    rw [hr] at hstepR hordR
    dsimp only [Option.bind] at hordR
    dsimp only at hstepR
    obtain ⟨⟨rk, hrk⟩, -⟩ := verifyExistenceE_ok_keys sha r s root _ _ hstepR
    rw [hrk] at hordR
    dsimp only at hordR
    cases hKa : keyForComparisonE sha s k with
    | error m => rw [hKa, exc_bind_error] at hordR; exact absurd hordR (by simp)
    | ok ca =>
      rw [hKa, exc_bind_ok] at hordR
      cases hKb : keyForComparisonE sha s rk with
      | error m => rw [hKb, exc_bind_error] at hordR; exact absurd hordR (by simp)
      | ok cb =>
        rw [hKb, exc_bind_ok] at hordR
        by_cases hbb : bytesBefore ca cb
        · exact ⟨rk, ca, cb, hrk, rfl, hKb, hbb⟩
        · rw [show ensureBytesBeforeE ca cb = .error "bytes not before" from by
            simp [ensureBytesBeforeE, hbb]] at hordR
          exact absurd hordR (by simp)

theorem C5_witness :
    (verifyNonExistenceE idSha neW sW [2, 3] [1] = .ok ())
    ∧ (neW.left.isSome ∨ neW.right.isSome) :=
  ⟨rfl, (C5_nonexistence_bracket idSha neW sW [2, 3] [1] rfl).1⟩

theorem lnLoop_stuck (ml mr : List InnerOp) (otl otr : Option InnerOp)
    (h : otl = none ∨ otr = none) :
    lnLoop ml mr otl otr = .error "TypeError: cannot read properties of undefined" := by
  rw [lnLoop.eq_def]
  rcases h with h | h
  · subst h
    rfl
  · subst h
    cases otl <;> rfl

theorem lnLoop_step (ml mr : List InnerOp) (tl tr : InnerOp)
    (hc : (bytesEqual tl.pfx tr.pfx && bytesEqual tl.sfx tr.sfx) = true) :
    lnLoop ml mr (some tl) (some tr)
      = lnLoop ml.dropLast mr.dropLast ml.getLast? mr.getLast? := by
  rw [lnLoop.eq_def]
  simp [hc]

theorem lnLoop_exhausts_rev (xs ys : List InnerOp) (hxy : List.Forall₂ stepEq xs ys) :
    ∀ tl tr : InnerOp, stepEq tl tr →
      lnLoop xs.reverse ys.reverse (some tl) (some tr)
        = .error "TypeError: cannot read properties of undefined" := by
  induction hxy with
  | nil =>
    intro tl tr htt
    rw [lnLoop_step _ _ _ _ (by simp [htt.1, htt.2])]
    exact lnLoop_stuck _ _ _ _ (Or.inl rfl)
  | cons hxyh hxyt IH =>
    intro tl tr htt
    rename_i x y xs' ys'
    rw [lnLoop_step _ _ _ _ (by simp [htt.1, htt.2])]
    rw [List.reverse_cons, List.reverse_cons, List.dropLast_concat, List.dropLast_concat,
      List.getLast?_concat, List.getLast?_concat]
    exact IH x y hxyh

theorem ensureLeftNeighbor_identical (ispec : InnerSpec) (lp rp : List InnerOp)
    (h : List.Forall₂ stepEq lp rp) (hne : lp ≠ []) :
    ensureLeftNeighborE ispec lp rp
      = .error "TypeError: cannot read properties of undefined" := by
  have hrel : List.Forall₂ stepEq lp.reverse rp.reverse := List.rel_reverse h
  rcases hx : lp.reverse with _ | ⟨x, xs⟩
  · exact absurd (by simpa using congrArg List.reverse hx) hne
  · rw [hx] at hrel
    generalize hry : rp.reverse = rl at hrel
    cases hrel with
    | cons hxyh hxyt =>
      rename_i y ys
      have hlp : lp = xs.reverse ++ [x] := by
        have h2 := congrArg List.reverse hx
        simpa [List.reverse_cons] using h2
      have hrp : rp = ys.reverse ++ [y] := by
        have h2 := congrArg List.reverse hry
        simpa [List.reverse_cons] using h2
      rw [hlp, hrp]
      unfold ensureLeftNeighborE jsPop
      rw [List.getLast?_concat, List.getLast?_concat, List.dropLast_concat,
        List.dropLast_concat]
      dsimp only
      rw [lnLoop_exhausts_rev xs ys hxyt x y hxyh]

/-- C10: on two non-empty neighbor paths of equal length whose steps have
pairwise byte-equal prefix and suffix, ensureLeftNeighbor's popping loop
exhausts both stacks and the following access throws instead of accepting, so
verifyNonExistence never succeeds on such a proof. -/
theorem C10_identical_paths (sha : Bytes → Bytes) (ne : NonExistenceProof)
    (s : ProofSpec) (root k : Bytes) (ispec : InnerSpec)
    (l r : ExistenceProof) (lk rk : Bytes)
    (hL : ne.left = some l) (hR : ne.right = some r)
    (hlk : l.key = some lk) (hrk : r.key = some rk)
    (hsteps : List.Forall₂ stepEq l.path r.path) (hnemp : l.path ≠ []) :
    ensureLeftNeighborE ispec l.path r.path
      = .error "TypeError: cannot read properties of undefined"
    ∧ verifyNonExistenceE sha ne s root k ≠ .ok () := by
  refine ⟨ensureLeftNeighbor_identical ispec l.path r.path hsteps hnemp, ?_⟩
  intro h
  unfold verifyNonExistenceE at h
  obtain ⟨-, h⟩ := exc_seq_ok h
  obtain ⟨-, h⟩ := exc_seq_ok h
  obtain ⟨-, h⟩ := exc_seq_ok h
  obtain ⟨-, h⟩ := exc_seq_ok h
  obtain ⟨-, hfinal⟩ := exc_seq_ok h
  rw [hL, hR] at hfinal
  cases hIS : s.innerSpec with
  | none => rw [hIS] at hfinal; exact absurd hfinal (by simp)
  | some ispec2 =>
    rw [hIS] at hfinal
    dsimp only [Option.bind] at hfinal
    rw [hlk, hrk] at hfinal
    dsimp only at hfinal
    simp only [Option.getD_some] at hfinal
    rw [ensureLeftNeighbor_identical ispec2 l.path r.path hsteps hnemp] at hfinal
    exact absurd hfinal (by simp)

theorem C10_witness :
    ensureLeftNeighborE isW [iopC10] [iopC10]
        = .error "TypeError: cannot read properties of undefined"
    ∧ verifyNonExistenceE idSha neC10 sW [9] [1] ≠ .ok () :=
  C10_identical_paths idSha neC10 sW [9] [1] isW
    ⟨some [0], some [0], some lfW, [iopC10]⟩ ⟨some [2], some [2], some lfW, [iopC10]⟩
    [0] [2] rfl rfl rfl rfl (List.Forall₂.cons ⟨rfl, rfl⟩ List.Forall₂.nil) (by simp)

/-- C7 counterexample: the sidecar inner-node prefix constant is not the UTF-8
encoding of "JMT::InternalNode"; the source spells the historical typo. -/
theorem C7_counterexample : innerPfxW ≠ utf8Bytes "JMT::InternalNode" := by
  decide

/-- C7 (amended): the sidecar inner-node prefix constant is the UTF-8 bytes of
"JMT::IntrnalNode" (the historical jellyfish-merkle typo, 16 bytes), the
sidecar ProofSpec pins both inner-prefix length bounds to exactly those 16
bytes (no tolerance), and combining two children hashes
innerPrefix ++ left ++ right with SHA-256. -/
theorem C7_webcat_inner_prefix :
    innerPfxW = utf8Bytes "JMT::IntrnalNode"
    ∧ innerPfxW.length = 16
    ∧ (∃ wspec, webcatSpec.innerSpec = some wspec
        ∧ wspec.minPrefixLength = 16 ∧ wspec.maxPrefixLength = 16)
    ∧ ∀ (sha : Bytes → Bytes) (left right : Bytes),
        combineChildrenE sha left right = .ok (sha (innerPfxW ++ left ++ right)) := by
  refine ⟨rfl, by decide, ⟨_, rfl, by decide, by decide⟩, ?_⟩
  intro sha left right
  rfl

/-- C2: evaluation of compress at a batch whose two existence entries share a
byte-identical inner op. The registry Map is keyed by the freshly allocated
encoded Uint8Array, so the lookup never hits: lookupInners receives one entry
per inner-op occurrence (2, not fewer than 2), while the decompress round-trip
still reproduces the batch exactly. -/
theorem C2_registry_identity_bug :
    compress pC2
      = .compressed ⟨[.exist ⟨some [1], some [2], some lfW, [0]⟩,
          .exist ⟨some [1], some [2], some lfW, [1]⟩], [iopC2, iopC2]⟩
    ∧ ([iopC2, iopC2] : List InnerOp).length = 2
    ∧ ¬ (([iopC2, iopC2] : List InnerOp).length < 2)
    ∧ decompress (compress pC2) = pC2 := by
  refine ⟨rfl, rfl, by simp, rfl⟩

/-- Invariant of the compression state: every key already in the registry was
allocated before the next fresh object id. -/
def RegWF (st : CompressState) : Prop := ∀ pr ∈ st.registry, pr.1 < st.nextObj

theorem jsMapGet_fresh (st : CompressState) (h : RegWF st) :
    jsMapGet st.registry st.nextObj = none := by
  unfold jsMapGet
  cases hf : st.registry.find? (fun pr => pr.1 = st.nextObj) with
  | none => rfl
  | some pr =>
    have hmem := List.mem_of_find?_eq_some hf
    have hp := List.find?_some hf
    have hlt := h pr hmem
    simp only [decide_eq_true_eq] at hp
    omega

theorem compressPathStep_spec (inner : InnerOp) (st : CompressState) (h : RegWF st) :
    compressPathStep inner st
      = (st.lookup.length,
         ⟨st.lookup ++ [inner], st.registry ++ [(st.nextObj, st.lookup.length)],
          st.nextObj + 1⟩)
    ∧ RegWF ⟨st.lookup ++ [inner], st.registry ++ [(st.nextObj, st.lookup.length)],
        st.nextObj + 1⟩ := by
  constructor
  · unfold compressPathStep
    have hget : jsMapGet st.registry st.nextObj = none := jsMapGet_fresh st h
    dsimp only
    rw [hget]
  · intro pr hpr
    dsimp only at hpr ⊢
    rcases List.mem_append.mp hpr with hold | hnew
    · have := h pr hold
      omega
    · simp at hnew
      rw [hnew]
      omega

theorem compressPathGo_spec (path : List InnerOp) : ∀ st : CompressState, RegWF st →
    ∃ reg, compressPathGo path st
        = (List.range' st.lookup.length path.length,
           ⟨st.lookup ++ path, reg, st.nextObj + path.length⟩)
      ∧ RegWF ⟨st.lookup ++ path, reg, st.nextObj + path.length⟩ := by
  induction path with
  | nil =>
    intro st h
    refine ⟨st.registry, ?_, ?_⟩
    · simp [compressPathGo, List.range']
    · intro pr hpr
      dsimp only at hpr ⊢
      simp only [List.length_nil, Nat.add_zero]
      exact h pr hpr
  | cons i rest IH =>
    intro st h
    obtain ⟨hstep, hwf1⟩ := compressPathStep_spec i st h
    obtain ⟨reg, hgo, hwf⟩ := IH _ hwf1
    refine ⟨reg, ?_, ?_⟩
    · unfold compressPathGo
      rw [hstep]
      dsimp only
      rw [hgo]
      dsimp only
      simp only [List.length_cons, List.range'_succ]
      simp [List.length_append, List.append_assoc]
      omega
    · intro pr hpr
      dsimp only at hpr
      have := hwf pr hpr
      dsimp only at this ⊢
      simp only [List.length_cons]
      omega

theorem decompressPath_mapBack (path : List InnerOp) : ∀ A B : List InnerOp,
    (List.range' A.length path.length).map (jsLookupAt (A ++ path ++ B)) = path := by
  induction path with
  | nil =>
    intro A B
    simp [List.range']
  | cons p ps IH =>
    intro A B
    simp only [List.length_cons, List.range'_succ, List.map_cons]
    have hhead : jsLookupAt (A ++ p :: ps ++ B) A.length = p := by
      unfold jsLookupAt
      rw [List.append_assoc, List.get?_append_right]
      · simp
      · exact le_refl _
    rw [hhead]
    have hshape : A ++ p :: ps ++ B = (A ++ [p]) ++ ps ++ B := by
      simp [List.append_assoc]
    have hlen : A.length + 1 = (A ++ [p]).length := by simp
    rw [hshape, hlen, IH (A ++ [p]) B]

theorem compressExistS_spec (e : ExistenceProof) (st : CompressState) (h : RegWF st) :
    ∃ ce st1, compressExistS e st = (ce, st1) ∧ RegWF st1
      ∧ st1.lookup = st.lookup ++ e.path
      ∧ ∀ B, decompressExistS ce (st.lookup ++ e.path ++ B) = e := by
  obtain ⟨reg, hgo, hwf⟩ := compressPathGo_spec e.path st h
  refine ⟨⟨e.key, e.value, e.leaf, List.range' st.lookup.length e.path.length⟩,
    ⟨st.lookup ++ e.path, reg, st.nextObj + e.path.length⟩, ?_, hwf, rfl, ?_⟩
  · unfold compressExistS
    rw [hgo]
  · intro B
    unfold decompressExistS
    rw [decompressPath_mapBack e.path st.lookup B]

theorem compressExistO_spec (oe : Option ExistenceProof) (st : CompressState)
    (h : RegWF st) :
    ∃ oce st1 P, compressExistO oe st = (oce, st1) ∧ RegWF st1
      ∧ st1.lookup = st.lookup ++ P
      ∧ ∀ B, decompressExistO oce (st.lookup ++ P ++ B) = oe := by
  cases oe with
  | none =>
    exact ⟨none, st, [], rfl, h, by simp, fun B => rfl⟩
  | some e =>
    obtain ⟨ce, st1, hce, hwf, hlk, hdec⟩ := compressExistS_spec e st h
    refine ⟨some ce, st1, e.path, ?_, hwf, hlk, ?_⟩
    · unfold compressExistO
      dsimp only
      rw [hce]
    · intro B
      unfold decompressExistO
      simp only [Option.map_some']
      rw [hdec B]

theorem compressEntriesGo_spec (entries : List BatchEntry) : ∀ st : CompressState,
    RegWF st →
    ∃ cs st', compressEntriesGo entries st = (cs, st') ∧ RegWF st'
      ∧ (∃ S, st'.lookup = st.lookup ++ S)
      ∧ ∀ B, cs.map (decompressEntry (st'.lookup ++ B)) = entries := by
  induction entries with
  | nil =>
    intro st h
    exact ⟨[], st, rfl, h, ⟨[], by simp⟩, fun B => rfl⟩
  | cons ent rest IH =>
    intro st h
    cases ent with
    | exist e =>
      obtain ⟨ce, st1, hce, hwf1, hlk1, hdec1⟩ := compressExistS_spec e st h
      obtain ⟨cs, st', hgo, hwf, ⟨S, hlkS⟩, hdec⟩ := IH st1 hwf1
      refine ⟨.exist ce :: cs, st', ?_, hwf,
        ⟨e.path ++ S, by rw [hlkS, hlk1, List.append_assoc]⟩, ?_⟩
      · unfold compressEntriesGo
        rw [hce]
        dsimp only
        rw [hgo]
      · intro B
        simp only [List.map_cons]
        have hF : st'.lookup ++ B = st.lookup ++ e.path ++ (S ++ B) := by
          rw [hlkS, hlk1]
          simp [List.append_assoc]
        have hhead : decompressEntry (st'.lookup ++ B) (.exist ce) = .exist e := by
          unfold decompressEntry
          dsimp only
          rw [hF, hdec1 (S ++ B)]
        rw [hhead, hdec B]
    | nonexist ne2 =>
      obtain ⟨ocl, stL, PL, hcl, hwfL, hlkL, hdecL⟩ :=
        compressExistO_spec ne2.left st h
      obtain ⟨ocr, stR, PR, hcr, hwfR, hlkR, hdecR⟩ :=
        compressExistO_spec ne2.right stL hwfL
      obtain ⟨cs, st', hgo, hwf, ⟨S, hlkS⟩, hdec⟩ := IH stR hwfR
      refine ⟨.nonexist ⟨ne2.key, ocl, ocr⟩ :: cs, st', ?_, hwf,
        ⟨PL ++ (PR ++ S), by rw [hlkS, hlkR, hlkL]; simp [List.append_assoc]⟩, ?_⟩
      · unfold compressEntriesGo
        rw [hcl]
        dsimp only
        rw [hcr]
        dsimp only
        rw [hgo]
      · intro B
        simp only [List.map_cons]
        have hFL : st'.lookup ++ B = st.lookup ++ PL ++ (PR ++ (S ++ B)) := by
          rw [hlkS, hlkR, hlkL]
          simp [List.append_assoc]
        have hFR : st'.lookup ++ B = stL.lookup ++ PR ++ (S ++ B) := by
          rw [hlkS, hlkR]
          simp [List.append_assoc]
        have hheadL : decompressExistO ocl (st'.lookup ++ B) = ne2.left := by
          rw [hFL]
          exact hdecL (PR ++ (S ++ B))
        have hheadR : decompressExistO ocr (st'.lookup ++ B) = ne2.right := by
          rw [hFR]
          exact hdecR (S ++ B)
        have hhead : decompressEntry (st'.lookup ++ B) (.nonexist ⟨ne2.key, ocl, ocr⟩)
            = .nonexist ne2 := by
          unfold decompressEntry
          dsimp only
          rw [hheadL, hheadR]
        rw [hhead, hdec B]

theorem decompressBatch_compressBatch (b : BatchProof) :
    decompressBatch (compressBatch b) = b := by
  obtain ⟨cs, st', hgo, hwf, ⟨S, hlk⟩, hdec⟩ :=
    compressEntriesGo_spec b.entries ⟨[], [], 0⟩ (by intro pr hpr; simp at hpr)
  unfold compressBatch decompressBatch
  rw [hgo]
  dsimp only
  have hd := hdec []
  rw [List.append_nil] at hd
  rw [hd]

theorem decompress_compress (p : CommitmentProof) :
    decompress (compress p) = decompress p := by
  cases p with
  | batch b =>
    show CommitmentProof.batch (decompressBatch (compressBatch b)) = CommitmentProof.batch b
    rw [decompressBatch_compressBatch]
  | exist e => rfl
  | nonexist ne => rfl
  | compressed c => rfl

theorem decompress_decompress (p : CommitmentProof) :
    decompress (decompress p) = decompress p := by
  cases p <;> rfl

/-- C3: compressing a proof is transparent to verifyMembership, and the
decompression of the compressed proof is verification-equivalent to the
original: for every spec, root, key and value the answers agree. -/
theorem C3_compress_transparent (sha : Bytes → Bytes) (p : CommitmentProof)
    (s : ProofSpec) (r k v : Bytes) :
    verifyMembershipE sha (compress p) s r k v = verifyMembershipE sha p s r k v
    ∧ verifyMembershipE sha (decompress (compress p)) s r k v
        = verifyMembershipE sha p s r k v := by
  constructor
  · unfold verifyMembershipE
    rw [decompress_compress]
  · unfold verifyMembershipE
    rw [decompress_decompress, decompress_compress]

/-- C1 counterexample: verifyNonMembership propagates an error. Searching for
the matching non-existence proof calls keyForComparison before the try block;
with a spec that pre-hashes comparison keys while its leaf spec declares
NO_HASH, doHash throws and the exception escapes instead of yielding false. -/
theorem C1_counterexample :
    verifyNonMembershipE idSha pC1 sC1 [] [1] = .error "Unsupported hashop" := rfl

theorem verifyMembershipE_total (sha : Bytes → Bytes) (p : CommitmentProof)
    (s : ProofSpec) (r k v : Bytes) :
    ∃ b, verifyMembershipE sha p s r k v = .ok b := by
  simp only [verifyMembershipE]
  cases hg : getExistForKey (decompress p) k with
  | none => exact ⟨false, rfl⟩
  | some e =>
    dsimp only
    cases hv : verifyExistenceE sha e s r k v with
    | ok u => exact ⟨true, rfl⟩
    | error m => exact ⟨false, rfl⟩

theorem verifyNonMembershipE_ok_of_search_ok (sha : Bytes → Bytes)
    (p : CommitmentProof) (s : ProofSpec) (r k : Bytes)
    (h : ∃ x, getNonExistForKeyE sha s (decompress p) k = .ok x) :
    ∃ b, verifyNonMembershipE sha p s r k = .ok b := by
  obtain ⟨x, hx⟩ := h
  simp only [verifyNonMembershipE]
  rw [hx, exc_bind_ok]
  cases x with
  | none => exact ⟨false, rfl⟩
  | some ne =>
    dsimp only
    cases hv : verifyNonExistenceE sha ne s r k with
    | ok u => exact ⟨true, rfl⟩
    | error m => exact ⟨false, rfl⟩

/-- C1 (amended): the try/catch in the top-level verifiers covers only the
final verification step. verifyMembership and batchVerifyMembership never
propagate (with the oneof proof shapes, decompress and the key search are
total); verifyNonMembership and batchVerifyNonMembership return a boolean
whenever the search for the bracketing non-existence proof does not itself
throw (its keyForComparison hashing runs outside the try and can propagate,
as the counterexample shows); verifyWebcatProof wraps its whole body in the
try and maps every thrown error to false. -/
theorem C1_catch_coverage :
    (∀ (sha : Bytes → Bytes) (p : CommitmentProof) (s : ProofSpec) (r k v : Bytes),
      ∃ b, verifyMembershipE sha p s r k v = .ok b)
    ∧ (∀ (sha : Bytes → Bytes) (p : CommitmentProof) (s : ProofSpec) (r k : Bytes),
        (∃ x, getNonExistForKeyE sha s (decompress p) k = .ok x) →
        ∃ b, verifyNonMembershipE sha p s r k = .ok b)
    ∧ (∀ (sha : Bytes → Bytes) (p : CommitmentProof) (s : ProofSpec) (r : Bytes)
        (items : List (Bytes × Bytes)),
        ∃ b, batchVerifyMembershipE sha p s r items = .ok b)
    ∧ (∀ (sha : Bytes → Bytes) (p : CommitmentProof) (s : ProofSpec) (r : Bytes)
        (keys : List Bytes),
        (∀ key ∈ keys, ∃ x, getNonExistForKeyE sha s (decompress p) key = .ok x) →
        ∃ b, batchVerifyNonMembershipE sha p s r keys = .ok b)
    ∧ (∀ (sha : Bytes → Bytes) (dec : Bytes → Except String CommitmentProof)
        (data : WebcatLeavesFile) (msg : String),
        webcatBodyE sha dec data = .error msg → verifyWebcatProof sha dec data = none) := by
  refine ⟨verifyMembershipE_total, verifyNonMembershipE_ok_of_search_ok, ?_, ?_, ?_⟩
  · intro sha p s r items
    unfold batchVerifyMembershipE
    induction items with
    | nil => exact ⟨true, rfl⟩
    | cons item rest IH =>
      obtain ⟨k, v⟩ := item
      obtain ⟨b, hb⟩ := verifyMembershipE_total sha (decompress p) s r k v
      obtain ⟨b2, hb2⟩ := IH
      unfold batchVerifyMembershipGo
      rw [hb, exc_bind_ok]
      cases b with
      | true => exact ⟨b2, by rw [if_pos rfl]; exact hb2⟩
      | false => exact ⟨false, by rw [if_neg (by simp)]; rfl⟩
  · intro sha p s r keys hsearch
    unfold batchVerifyNonMembershipE
    induction keys with
    | nil => exact ⟨true, rfl⟩
    | cons key rest IH =>
      have hk : ∃ x, getNonExistForKeyE sha s (decompress (decompress p)) key = .ok x := by
        rw [decompress_decompress]
        exact hsearch key (by simp)
      obtain ⟨b, hb⟩ := verifyNonMembershipE_ok_of_search_ok sha (decompress p) s r key hk
      obtain ⟨b2, hb2⟩ := IH (fun key2 hk2 => hsearch key2 (by simp [hk2]))
      unfold batchVerifyNonMembershipGo
      rw [hb, exc_bind_ok]
      cases b with
      | true => exact ⟨b2, by rw [if_pos rfl]; exact hb2⟩
      | false => exact ⟨false, by rw [if_neg (by simp)]; rfl⟩
  · intro sha dec data msg hmsg
    unfold verifyWebcatProof
    rw [hmsg]

theorem C1_witness :
    (∃ b, verifyMembershipE idSha (.exist eW) sW [1, 2] [1] [2] = .ok b)
    ∧ (∃ b, verifyNonMembershipE idSha (.exist eW) sW [] [] = .ok b) :=
  ⟨C1_catch_coverage.1 idSha (.exist eW) sW [1, 2] [1] [2],
   C1_catch_coverage.2.1 idSha (.exist eW) sW [] [] ⟨none, rfl⟩⟩
